import Mathlib

/-!
# gachakel: group allocation, drag-and-drop moves and name entry

A shallow embedding of the `App` class of `src/js/app.js`:

* `acakArray` and `buatKelompok` (lines 178-229): shuffle the roster and deal it into groups;
* `onDrop` (lines 240-262): move one member from a group to another;
* `simpanNamaAnggota` (lines 79-117): split free text into names and hand them to the database.

JavaScript arrays are modelled by lists, JavaScript strings by lists of characters, the numbers
read from the page by integers, and an exception thrown by a method by the flag `threw` of the
`Outcome` it returns (the state that the method had reached is kept, as in JavaScript).
The collaborators `Database`, `UI` and `PDFExporter` are not part of this file: what the
database returns, and which of its calls reject, are parameters, and what is sent to the database
is recorded as a list of `DbEvent`.
-/

namespace Gachakel

/-! ## Data model -/

/-- The JavaScript values that are stored in the roster and in the groups: a member record
`{ id, nama }`, or `undefined` (which `onDrop` can push into a group). -/
inductive Value where
  | undefined
  | anggota (id : Nat) (nama : List Char)
  deriving DecidableEq, Repr

/-- The fields of `App` set by the constructor (lines 12-16). -/
structure App where
  anggota : List Value
  kelompokData : List (List Value)
  modeJumlah : Bool
  isEditing : Bool
  editingId : Option Nat
  deriving DecidableEq, Repr

/-- What a method leaves behind: the state of the application, and whether the method ended by
throwing (a `TypeError` on `undefined.splice` or `undefined.push`). -/
structure Outcome where
  app : App
  threw : Bool
  deriving DecidableEq, Repr

/-! ## Allocation (`acakArray`, `buatKelompok`) -/

/-- The shuffle of lines 178-183. `rnd i` is the value of the `i`-th call of `Math.random()`,
which `map` makes for the element of index `i`; a double of `[0, 1)` is a multiple of `2^-1074`,
so the keys are numbered by naturals in their order. `sort` is stable and ascending in the key
(`a.sort - b.sort`). -/
def acakArray (rnd : Nat → Nat) (arr : List Value) : List Value :=
  ((arr.enum.map (fun p => (rnd p.1, p.2))).insertionSort (fun a b => a.1 ≤ b.1)).map
    (fun a => a.2)

/-- `Math.ceil(n / m)` for array lengths `n` and `m` with `m ≥ 1`. -/
def ceilDiv (n m : Nat) : Nat := (n + m - 1) / m

/-- The loop of lines 215-218: `forEach` hands the elements over with their indices, from
`index` on, and each is pushed on the group `index % jumlahKelompok`. When there is no such group
(`kelompokData[groupIndex]` is `undefined`) the `push` throws and the loop stops there. -/
def forEachPush (jumlahKelompok : Nat) :
    List Value → Nat → List (List Value) → List (List Value) × Bool
  | [], _, kelompokData => (kelompokData, false)
  | anggota :: rest, index, kelompokData =>
    let groupIndex := index % jumlahKelompok
    match kelompokData[groupIndex]? with
    | none => (kelompokData, true)
    | some group =>
      forEachPush jumlahKelompok rest (index + 1) (kelompokData.set groupIndex (group ++ [anggota]))

/-- The resolution of the number of groups of lines 205-211, for a target `val ≥ 1` and a
roster of `n` members. By size the per-group size `anggotaPerKelompok` is `min(val, n)` and the
number of groups its ceiling quotient; by count `anggotaPerKelompok` is computed too, and never
read. -/
def jumlahKelompok (modeJumlah : Bool) (val : Int) (n : Nat) : Nat :=
  if modeJumlah then (min val (n : Int)).toNat
  else ceilDiv n (min val (n : Int)).toNat

/-- The method `buatKelompok` (lines 186-229). `val` is what `ui.getJumlahInput()` returned and
`rnd` the draws of `Math.random()`. The two guards return without touching the state. -/
def buatKelompok (rnd : Nat → Nat) (val : Int) (app : App) : Outcome :=
  if app.anggota.length = 0 then ⟨app, false⟩
  else if val = 0 ∨ val < 1 then ⟨app, false⟩
  else
    let shuffledAnggota := acakArray rnd app.anggota
    let k := jumlahKelompok app.modeJumlah val app.anggota.length
    let r := forEachPush k shuffledAnggota 0 (List.replicate k [])
    ⟨{ app with kelompokData := r.1 }, r.2⟩

/-! ## Moves (`onDrop`) -/

/-- The array element `arr[i]` for a number `i`: `undefined` (here `none`) outside `0 .. length-1`. -/
def index? {α : Type} (arr : List α) (i : Int) : Option α :=
  if i < 0 then none else arr[i.toNat]?

/-- The start position that `Array.prototype.splice` computes from its first argument: a negative
`start` counts from the end, and the result is clamped to `0 .. len`. -/
def spliceStart (len : Nat) (start : Int) : Nat :=
  if start < 0 then ((len : Int) + start).toNat else min start.toNat len

/-- The call `arr.splice(start, 1)`: the removed elements (at most one) and the array that is left. -/
def splice1 (arr : List Value) (start : Int) : List Value × List Value :=
  let actualStart := spliceStart arr.length start
  let deleteCount := min 1 (arr.length - actualStart)
  ((arr.drop actualStart).take deleteCount,
   arr.take actualStart ++ arr.drop (actualStart + deleteCount))

/-- The method `onDrop` (lines 240-262), on the drag data `anggotaIdx`, `fromGroupIdx` that
`JSON.parse` returned. -/
def onDrop (anggotaIdx fromGroupIdx toGroupIdx : Int) (app : App) : Outcome :=
  if fromGroupIdx = toGroupIdx then ⟨app, false⟩
  else
    match index? app.kelompokData fromGroupIdx with
    | none => ⟨app, true⟩
    | some source =>
      let spliced := splice1 source anggotaIdx
      let movedAnggota := spliced.1.head?.getD Value.undefined
      let kelompokData1 := app.kelompokData.set fromGroupIdx.toNat spliced.2
      match index? kelompokData1 toGroupIdx with
      | none => ⟨{ app with kelompokData := kelompokData1 }, true⟩
      | some target =>
        ⟨{ app with kelompokData := kelompokData1.set toGroupIdx.toNat (target ++ [movedAnggota]) },
         false⟩

/-! ## Name entry (`simpanNamaAnggota`) -/

/-- A call that `App` makes on its `Database`. -/
inductive DbCall where
  | addAnggota (nama : List Char)
  | updateAnggota (id : Option Nat) (nama : List Char)
  | getAllAnggota
  deriving DecidableEq, Repr

/-- A database call that was made, and whether its promise rejected. -/
structure DbEvent where
  call : DbCall
  rejected : Bool
  deriving DecidableEq, Repr

/-- The separators of the regular expression `/[,\n]/`. -/
def isSeparator (c : Char) : Bool := c == ',' || c == '\n'

/-- The call `input.split(/[,\n]/)`: the pieces between the separators, the empty ones included. -/
def splitNames : List Char → List (List Char)
  | [] => [[]]
  | c :: cs =>
    if isSeparator c then [] :: splitNames cs
    else
      match splitNames cs with
      | [] => [[c]]
      | piece :: pieces => (c :: piece) :: pieces

/-- The characters that `String.prototype.trim` strips: ECMAScript `WhiteSpace` and
`LineTerminator`. -/
def isTrimmed (c : Char) : Bool :=
  c.val == 0x09 || c.val == 0x0A || c.val == 0x0B || c.val == 0x0C || c.val == 0x0D ||
  c.val == 0x20 || c.val == 0xA0 || c.val == 0x1680 ||
  (0x2000 ≤ c.val && c.val ≤ 0x200A) ||
  c.val == 0x2028 || c.val == 0x2029 || c.val == 0x202F || c.val == 0x205F ||
  c.val == 0x3000 || c.val == 0xFEFF

/-- The call `name.trim()`. -/
def trim (name : List Char) : List Char :=
  ((name.dropWhile isTrimmed).reverse.dropWhile isTrimmed).reverse

/-- The array `names` of lines 87-90. -/
def parseNames (input : List Char) : List (List Char) :=
  ((splitNames input).map trim).filter (fun name => !name.isEmpty)

/-- The loop of lines 106-108, from the database call number `i` of the method on: the names
are handed to `db.addAnggota` one after the other; `rejects j` says that the call number `j`
rejects, and then the `await` throws and the loop stops there. The result is the calls made and
whether the loop threw. -/
def addAnggotaLoop (rejects : Nat → Bool) : List (List Char) → Nat → List DbEvent × Bool
  | [], _ => ([], false)
  | name :: rest, i =>
    if rejects i then ([⟨DbCall.addAnggota name, true⟩], true)
    else
      let r := addAnggotaLoop rejects rest (i + 1)
      (⟨DbCall.addAnggota name, false⟩ :: r.1, r.2)

/-- The method `loadAnggotaFromDB` (lines 34-42), as the database call number `i`: the roster
becomes what `db.getAllAnggota()` answers, `reloaded`, unless that call rejects, which the
method catches, leaving the roster as it was. -/
def loadAnggotaFromDB (rejects : Nat → Bool) (i : Nat) (reloaded : List Value) (app : App) :
    App × List DbEvent :=
  if rejects i then (app, [⟨DbCall.getAllAnggota, true⟩])
  else ({ app with anggota := reloaded }, [⟨DbCall.getAllAnggota, false⟩])

/-- The method `simpanNamaAnggota` (lines 79-117): the state it leaves and the database calls it
makes, in order. `input` is what `ui.getInputValue()` returned, `rejects j` says that the database
call number `j` of the method rejects, and `reloaded` is what `db.getAllAnggota()` answers. A
rejected `updateAnggota` or `addAnggota` goes to the `catch` of line 113: the rest of the `try`
block, and with it `loadAnggotaFromDB`, is skipped. -/
def simpanNamaAnggota (input : List Char) (rejects : Nat → Bool) (reloaded : List Value)
    (app : App) : App × List DbEvent :=
  if input.isEmpty then (app, [])
  else
    let names := parseNames input
    if names.length = 0 then (app, [])
    else if app.isEditing then
      if rejects 0 then (app, [⟨DbCall.updateAnggota app.editingId (names.headD []), true⟩])
      else
        let r := loadAnggotaFromDB rejects 1 reloaded
          { app with isEditing := false, editingId := none }
        (r.1, ⟨DbCall.updateAnggota app.editingId (names.headD []), false⟩ :: r.2)
    else
      let added := addAnggotaLoop rejects names 0
      if added.2 then (app, added.1)
      else
        let r := loadAnggotaFromDB rejects names.length reloaded app
        (r.1, added.1 ++ r.2)

/-- The names that a list of database calls adds, in order: those of the `addAnggota` calls
that did not reject. -/
def addedNames (events : List DbEvent) : List (List Char) :=
  events.filterMap (fun e => match e with
    | ⟨DbCall.addAnggota nama, false⟩ => some nama
    | _ => none)

/-- The names that a list of database calls hands to `db.addAnggota`, in order, rejected calls
included. -/
def handedNames (events : List DbEvent) : List (List Char) :=
  events.filterMap (fun e => match e with
    | ⟨DbCall.addAnggota nama, _⟩ => some nama
    | _ => none)

/-- The number of names added before the first rejected call, among the calls numbered from `i`
on for `n` names. -/
def acceptedCount (rejects : Nat → Bool) : Nat → Nat → Nat
  | 0, _ => 0
  | n + 1, i => if rejects i then 0 else acceptedCount rejects n (i + 1) + 1

/-! ## Specification-side notions -/

/-- The state of the groups when the elements of `s` of index below `i` have been dealt: the
entry `j` of the group `g` is `s[g + j * k]` as long as that index is below `i`, and the group
ends there. -/
def Dealt (s : List Value) (k i : Nat) (groups : List (List Value)) : Prop :=
  groups.length = k ∧
    ∀ (g : Nat) (group : List Value), groups[g]? = some group →
      ∀ j : Nat, group[j]? = if g + j * k < i then s[g + j * k]? else none

/-- The text that has the given pieces with the given separators between them: the inverse
reading of "the segments obtained by splitting at every separator". -/
def weave : List (List Char) → List Char → List Char
  | [], _ => []
  | piece :: _, [] => piece
  | piece :: pieces, c :: cs => piece ++ c :: weave pieces cs

/-! ## Sample data -/

/-- Seven members, `A` to `G`. -/
def sampleRoster : List Value :=
  [Value.anggota 1 ['A'], Value.anggota 2 ['B'], Value.anggota 3 ['C'], Value.anggota 4 ['D'],
   Value.anggota 5 ['E'], Value.anggota 6 ['F'], Value.anggota 7 ['G']]

/-- Seven draws of `Math.random()`, as ranks. -/
def sampleKeys (i : Nat) : Nat := [3, 1, 2, 0, 5, 4, 9].getD i 0

/-- An application state with the first `n` sample members, no groups yet. -/
def sampleApp (n : Nat) (modeJumlah : Bool) : App :=
  ⟨sampleRoster.take n, [], modeJumlah, false, none⟩

/-! ## The loop of `buatKelompok` -/

theorem flatten_set_push_perm (groups : List (List Value)) (g : Nat) (group : List Value)
    (a : Value) (h : groups[g]? = some group) :
    ((groups.set g (group ++ [a])).flatten).Perm (a :: groups.flatten) := by
  induction groups generalizing g with
  | nil => simp at h
  | cons x xs ih =>
    cases g with
    | zero =>
      simp only [List.getElem?_cons_zero, Option.some.injEq] at h
      subst h
      simp only [List.set_cons_zero, List.flatten_cons, List.append_assoc, List.singleton_append]
      exact List.perm_middle
    | succ g =>
      simp only [List.getElem?_cons_succ] at h
      simp only [List.set_cons_succ, List.flatten_cons]
      exact ((ih g h).append_left x).trans List.perm_middle

/-- The loop never throws when there is at least one group and the array of groups has
`jumlahKelompok` entries; it keeps that number of groups, and the members of the groups after
the loop are those before it together with the elements dealt. -/
theorem forEachPush_perm (k : Nat) (hk : 0 < k) (rest : List Value) :
    ∀ (index : Nat) (groups : List (List Value)), groups.length = k →
      (forEachPush k rest index groups).2 = false ∧
      (forEachPush k rest index groups).1.length = k ∧
      ((forEachPush k rest index groups).1.flatten).Perm (groups.flatten ++ rest) := by
  induction rest with
  | nil => intro index groups hlen; simp [forEachPush, hlen]
  | cons a rest ih =>
    intro index groups hlen
    have hlt : index % k < groups.length := by rw [hlen]; exact Nat.mod_lt _ hk
    have hget : groups[index % k]? = some groups[index % k] := List.getElem?_eq_getElem hlt
    simp only [forEachPush, hget]
    obtain ⟨h1, h2, h3⟩ := ih (index + 1) (groups.set (index % k) (groups[index % k] ++ [a]))
      (by simp [hlen])
    refine ⟨h1, h2, h3.trans ?_⟩
    exact ((flatten_set_push_perm groups _ _ a hget).append_right rest).trans
      (by simpa using (@List.perm_middle Value a groups.flatten rest).symm)

theorem dealt_replicate (s : List Value) (k : Nat) : Dealt s k 0 (List.replicate k []) := by
  refine ⟨by simp, ?_⟩
  intro g group hg j
  rw [List.getElem?_replicate] at hg
  split at hg
  · simp only [Option.some.injEq] at hg
    subst hg
    simp
  · simp at hg

theorem dealt_length (s : List Value) (k i : Nat) (groups : List (List Value))
    (h : Dealt s k i groups) (hi : i ≤ s.length) (group : List Value)
    (hg : groups[i % k]? = some group) : group.length = i / k := by
  have hdiv : i % k + i / k * k = i := by
    rw [Nat.mul_comm]; exact Nat.mod_add_div i k
  have hcell := h.2 (i % k) group hg
  apply Nat.le_antisymm
  · have h1 := hcell (i / k)
    rw [hdiv] at h1
    simp only [Nat.lt_irrefl, if_false] at h1
    exact List.getElem?_eq_none_iff.mp h1
  · rcases Nat.eq_zero_or_pos (i / k) with h0 | hpos
    · omega
    · have h1 := hcell (i / k - 1)
      have hk : 1 ≤ k := by
        rcases Nat.eq_zero_or_pos k with hk0 | hk1
        · subst hk0; simp at hpos
        · exact hk1
      have hmul : (i / k - 1) * k + k = i / k * k := by
        have : i / k = (i / k - 1) + 1 := by omega
        conv_rhs => rw [this, Nat.add_mul, Nat.one_mul]
      have hlt : i % k + (i / k - 1) * k < i := by omega
      rw [if_pos hlt] at h1
      have hsome : (i % k + (i / k - 1) * k) < s.length := by omega
      rw [List.getElem?_eq_getElem hsome] at h1
      have : i / k - 1 < group.length := by
        by_contra hc
        rw [List.getElem?_eq_none (by omega)] at h1
        simp at h1
      omega

theorem dealt_push (s : List Value) (k i : Nat) (hk : 0 < k) (groups : List (List Value))
    (h : Dealt s k i groups) (a : Value) (hi : s[i]? = some a) (group : List Value)
    (hg : groups[i % k]? = some group) :
    Dealt s k (i + 1) (groups.set (i % k) (group ++ [a])) := by
  have hilt : i < s.length := by
    by_contra hc
    rw [List.getElem?_eq_none (by omega)] at hi
    simp at hi
  have hlen := dealt_length s k i groups h (by omega) group hg
  have hdiv : i % k + i / k * k = i := by
    rw [Nat.mul_comm]; exact Nat.mod_add_div i k
  refine ⟨by simpa using h.1, ?_⟩
  intro g grp hgrp j
  rw [List.getElem?_set] at hgrp
  by_cases hgg : i % k = g
  · have hbound : i % k < groups.length := by rw [h.1]; exact Nat.mod_lt _ hk
    rw [if_pos hgg, if_pos hbound] at hgrp
    simp only [Option.some.injEq] at hgrp
    subst hgrp
    subst hgg
    rw [List.getElem?_append, hlen]
    rcases Nat.lt_trichotomy j (i / k) with hj | hj | hj
    · have hm := Nat.mul_le_mul_right k (show j + 1 ≤ i / k from hj)
      rw [Nat.add_mul, Nat.one_mul] at hm
      have hcell := h.2 (i % k) group hg j
      rw [if_pos hj, hcell, if_pos (by omega), if_pos (by omega)]
    · subst hj
      rw [if_neg (Nat.lt_irrefl _), hdiv, if_pos (Nat.lt_succ_self i), hi]
      simp
    · have hm := Nat.mul_le_mul_right k (show i / k + 1 ≤ j from hj)
      rw [Nat.add_mul, Nat.one_mul] at hm
      rw [if_neg (by omega), if_neg (by omega)]
      exact List.getElem?_eq_none (by simp; omega)
  · rw [if_neg hgg] at hgrp
    have hgk : g < k := by
      rw [← h.1]
      by_contra hc
      rw [List.getElem?_eq_none (by omega)] at hgrp
      simp at hgrp
    have hne : g + j * k ≠ i := by
      intro he
      apply hgg
      rw [← he, Nat.add_mul_mod_self_right, Nat.mod_eq_of_lt hgk]
    rw [h.2 g grp hgrp j]
    by_cases hc : g + j * k < i
    · rw [if_pos hc, if_pos (by omega)]
    · rw [if_neg hc, if_neg (by omega)]

/-- Dealing the rest of `s` from a state in which its first elements have been dealt ends in
the state in which all of `s` has been dealt. -/
theorem forEachPush_dealt (k : Nat) (hk : 0 < k) (rest : List Value) :
    ∀ (pre : List Value) (groups : List (List Value)),
      Dealt (pre ++ rest) k pre.length groups →
      Dealt (pre ++ rest) k (pre ++ rest).length (forEachPush k rest pre.length groups).1 := by
  induction rest with
  | nil => intro pre groups h; simpa [forEachPush] using h
  | cons a rest ih =>
    intro pre groups h
    have hlt : pre.length % k < groups.length := by rw [h.1]; exact Nat.mod_lt _ hk
    have hget : groups[pre.length % k]? = some groups[pre.length % k] :=
      List.getElem?_eq_getElem hlt
    have hi : (pre ++ a :: rest)[pre.length]? = some a := by
      rw [List.getElem?_append_right (Nat.le_refl _)]; simp
    have hstep := dealt_push (pre ++ a :: rest) k pre.length hk groups h a hi _ hget
    simp only [forEachPush, hget]
    have hih := ih (pre ++ [a]) (groups.set (pre.length % k) (groups[pre.length % k] ++ [a]))
    simp only [List.append_assoc, List.singleton_append, List.length_append, List.length_singleton,
      List.length_cons] at hih
    simpa using hih hstep

/-! ## Facts on `acakArray` and on the number of groups -/

theorem acakArray_perm (rnd : Nat → Nat) (arr : List Value) : (acakArray rnd arr).Perm arr := by
  unfold acakArray
  have h := (List.perm_insertionSort (fun a b : Nat × Value => a.1 ≤ b.1)
    (arr.enum.map (fun p => (rnd p.1, p.2)))).map (fun a => a.2)
  refine h.trans ?_
  rw [List.map_map]
  have : ((fun a : Nat × Value => a.2) ∘ fun p : Nat × Value => (rnd p.1, p.2)) = Prod.snd := by
    funext p; rfl
  rw [this, List.enum_map_snd]

theorem acakArray_length (rnd : Nat → Nat) (arr : List Value) :
    (acakArray rnd arr).length = arr.length := (acakArray_perm rnd arr).length_eq

theorem ceilDiv_mul_ge (n m : Nat) (hm : 0 < m) : n ≤ ceilDiv n m * m := by
  unfold ceilDiv
  have h1 := Nat.div_add_mod (n + m - 1) m
  have h2 := Nat.mod_lt (n + m - 1) hm
  rw [Nat.mul_comm] at h1
  omega

theorem ceilDiv_mul_lt (n m : Nat) (hm : 0 < m) (hn : 0 < n) : (ceilDiv n m - 1) * m < n := by
  unfold ceilDiv
  have h1 := Nat.div_add_mod (n + m - 1) m
  rw [Nat.mul_comm] at h1
  have hpos : 0 < (n + m - 1) / m := Nat.div_pos (by omega) hm
  have h3 : ((n + m - 1) / m - 1) * m + m = (n + m - 1) / m * m := by
    have : (n + m - 1) / m = ((n + m - 1) / m - 1) + 1 := by omega
    conv_rhs => rw [this, Nat.add_mul, Nat.one_mul]
  omega

theorem ceilDiv_pos (n m : Nat) (hm : 0 < m) (hn : 0 < n) : 0 < ceilDiv n m :=
  Nat.div_pos (by omega) hm

/-- The natural `ceilDiv n m` is the ceiling of the quotient `n / m`. -/
theorem ceilDiv_eq_ceil (n m : Nat) (hm : 0 < m) :
    ((ceilDiv n m : Nat) : Int) = ⌈(n : ℚ) / (m : ℚ)⌉ := by
  symm
  rw [Int.ceil_eq_iff]
  have hmq : (0 : ℚ) < (m : ℚ) := by exact_mod_cast hm
  have hge := ceilDiv_mul_ge n m hm
  constructor
  · rw [lt_div_iff₀ hmq]
    rcases Nat.eq_zero_or_pos n with h0 | hpos
    · subst h0
      have : ceilDiv 0 m = 0 := by
        unfold ceilDiv
        exact Nat.div_eq_of_lt (by omega)
      rw [this]
      simp
      exact hm
    · have hlt := ceilDiv_mul_lt n m hm hpos
      have hc := ceilDiv_pos n m hm hpos
      have hq : (((ceilDiv n m - 1) * m : Nat) : ℚ) < (n : ℚ) := by exact_mod_cast hlt
      rw [Nat.cast_mul, Nat.cast_sub hc] at hq
      simpa using hq
  · rw [div_le_iff₀ hmq]
    have hq : (n : ℚ) ≤ ((ceilDiv n m * m : Nat) : ℚ) := by exact_mod_cast hge
    rw [Nat.cast_mul] at hq
    simpa using hq

theorem min_toNat (val : Int) (n : Nat) (hv : 1 ≤ val) (hn : 0 < n) :
    0 < (min val (n : Int)).toNat ∧ (min val (n : Int)).toNat ≤ n ∧
      ((min val (n : Int)).toNat : Int) = min val (n : Int) ∧
      ((min val (n : Int)).toNat : Int) ≤ val := by
  rcases le_total val (n : Int) with h | h
  · rw [min_eq_left h]; omega
  · rw [min_eq_right h]; omega

theorem jumlahKelompok_pos (mode : Bool) (val : Int) (n : Nat) (hv : 1 ≤ val) (hn : 0 < n) :
    0 < jumlahKelompok mode val n := by
  obtain ⟨h1, -, -, -⟩ := min_toNat val n hv hn
  unfold jumlahKelompok
  cases mode
  · simpa using ceilDiv_pos n _ h1 hn
  · simpa using h1

/-- Past its two guards `buatKelompok` is the loop, run on the shuffled roster from empty
groups. -/
theorem buatKelompok_run (rnd : Nat → Nat) (val : Int) (app : App)
    (hn : app.anggota ≠ []) (hv : 1 ≤ val) :
    buatKelompok rnd val app =
      ⟨{ app with kelompokData :=
          (forEachPush (jumlahKelompok app.modeJumlah val app.anggota.length)
            (acakArray rnd app.anggota) 0
            (List.replicate (jumlahKelompok app.modeJumlah val app.anggota.length) [])).1 },
        (forEachPush (jumlahKelompok app.modeJumlah val app.anggota.length)
            (acakArray rnd app.anggota) 0
            (List.replicate (jumlahKelompok app.modeJumlah val app.anggota.length) [])).2⟩ := by
  have h1 : ¬ app.anggota.length = 0 := by
    intro h; exact hn (List.length_eq_zero.mp h)
  have h2 : ¬ (val = 0 ∨ val < 1) := by omega
  simp only [buatKelompok, h1, h2, if_false]

/-- After `buatKelompok` the whole shuffled roster has been dealt, and nothing was thrown. -/
theorem buatKelompok_dealt (rnd : Nat → Nat) (val : Int) (app : App)
    (hn : app.anggota ≠ []) (hv : 1 ≤ val) :
    (buatKelompok rnd val app).threw = false ∧
      Dealt (acakArray rnd app.anggota) (jumlahKelompok app.modeJumlah val app.anggota.length)
        (acakArray rnd app.anggota).length (buatKelompok rnd val app).app.kelompokData := by
  have hpos : 0 < app.anggota.length := List.length_pos.mpr hn
  have hk := jumlahKelompok_pos app.modeJumlah val app.anggota.length hv hpos
  rw [buatKelompok_run rnd val app hn hv]
  refine ⟨(forEachPush_perm _ hk _ 0 _ (by simp)).1, ?_⟩
  have h := forEachPush_dealt _ hk (acakArray rnd app.anggota) [] _
    (dealt_replicate (acakArray rnd app.anggota) _)
  simpa using h

/-- Bounds on a group of a fully dealt state: the indices `g + j * k` of its entries are indices
of `s`, and the next index of the progression is not. -/
theorem dealt_bounds (s : List Value) (k : Nat) (groups : List (List Value))
    (h : Dealt s k s.length groups) (g : Nat) (group : List Value)
    (hg : groups[g]? = some group) :
    s.length ≤ g + group.length * k ∧ ∀ j, j < group.length → g + j * k < s.length := by
  have hcell := h.2 g group hg
  constructor
  · have h1 := hcell group.length
    rw [List.getElem?_eq_none (Nat.le_refl _)] at h1
    by_contra hc
    rw [if_pos (by omega), List.getElem?_eq_getElem (by omega)] at h1
    simp at h1
  · intro j hj
    have h1 := hcell j
    rw [List.getElem?_eq_getElem hj] at h1
    by_contra hc
    rw [if_neg hc] at h1
    simp at h1

theorem ceilDiv_ceilDiv_le (n m : Nat) (hm : 0 < m) (hn : 0 < n) :
    ceilDiv n (ceilDiv n m) ≤ m := by
  have hge := ceilDiv_mul_ge n m hm
  have hkpos := ceilDiv_pos n m hm hn
  generalize ceilDiv n m = k at hge hkpos
  have hlt : ceilDiv n k < m + 1 := by
    unfold ceilDiv
    rw [Nat.div_lt_iff_lt_mul hkpos, Nat.add_mul, Nat.one_mul, Nat.mul_comm m k]
    omega
  omega

/-- In a fully dealt state with `k` groups, a bound `m` with `|s| ≤ k * m` bounds the size of
every group. -/
theorem dealt_length_le (s : List Value) (k m : Nat) (groups : List (List Value))
    (h : Dealt s k s.length groups) (hkm : s.length ≤ k * m) (group : List Value)
    (hg : group ∈ groups) : group.length ≤ m := by
  obtain ⟨i, hi⟩ := List.mem_iff_getElem?.mp hg
  have hb := dealt_bounds s k groups h i group hi
  by_contra hc
  have hlast := hb.2 (group.length - 1) (by omega)
  have hmul := Nat.mul_le_mul_left k (show m ≤ group.length - 1 by omega)
  rw [Nat.mul_comm (group.length - 1) k] at hlast
  omega

/-! ## Allocation: the claims -/

/-- C1 (partition completeness): for a non-empty roster and an integer target `val ≥ 1`, in
both modes and for every assignment of the random sort keys, `buatKelompok` does not throw and
the concatenation of the groups it stores in `kelompokData` is a permutation of the roster:
every value occurs in the groups exactly as often as in the roster (once, for a roster without
repetition, so that the groups are then pairwise disjoint). -/
theorem buatKelompok_partition (rnd : Nat → Nat) (val : Int) (app : App)
    (hn : app.anggota ≠ []) (hv : 1 ≤ val) :
    (buatKelompok rnd val app).threw = false ∧
      ((buatKelompok rnd val app).app.kelompokData.flatten).Perm app.anggota ∧
      (∀ a : Value,
        ((buatKelompok rnd val app).app.kelompokData.flatten).count a = app.anggota.count a) ∧
      (app.anggota.Nodup → ((buatKelompok rnd val app).app.kelompokData.flatten).Nodup) := by
  have hpos : 0 < app.anggota.length := List.length_pos.mpr hn
  have hk := jumlahKelompok_pos app.modeJumlah val app.anggota.length hv hpos
  have hperm : ((buatKelompok rnd val app).app.kelompokData.flatten).Perm app.anggota := by
    rw [buatKelompok_run rnd val app hn hv]
    have h := (forEachPush_perm _ hk (acakArray rnd app.anggota) 0
      (List.replicate (jumlahKelompok app.modeJumlah val app.anggota.length) [])
      (by simp)).2.2
    have hnil : (List.replicate (jumlahKelompok app.modeJumlah val app.anggota.length)
        ([] : List Value)).flatten = [] := by
      simp [List.flatten_eq_nil_iff]
    rw [hnil, List.nil_append] at h
    exact h.trans (acakArray_perm rnd app.anggota)
  exact ⟨(buatKelompok_dealt rnd val app hn hv).1, hperm, fun a => hperm.count_eq a,
    fun hnd => hperm.nodup_iff.mpr hnd⟩

theorem buatKelompok_partition_witness :
    (sampleApp 5 true).anggota ≠ [] ∧ (1 : Int) ≤ 2 ∧
      (buatKelompok sampleKeys 2 (sampleApp 5 true)).app.kelompokData =
        [[Value.anggota 4 ['D'], Value.anggota 3 ['C'], Value.anggota 5 ['E']],
         [Value.anggota 2 ['B'], Value.anggota 1 ['A']]] ∧
      ((buatKelompok sampleKeys 2 (sampleApp 5 true)).app.kelompokData.flatten).Perm
        (sampleApp 5 true).anggota :=
  ⟨by decide, by decide, by decide,
    (buatKelompok_partition sampleKeys 2 (sampleApp 5 true) (by decide) (by decide)).2.1⟩

/-- C2 (balance): for a non-empty roster and an integer target `val ≥ 1`, in both modes, the
sizes of any two groups that `buatKelompok` produces differ by at most 1. -/
theorem buatKelompok_balanced (rnd : Nat → Nat) (val : Int) (app : App)
    (hn : app.anggota ≠ []) (hv : 1 ≤ val) (g₁ g₂ : List Value)
    (h₁ : g₁ ∈ (buatKelompok rnd val app).app.kelompokData)
    (h₂ : g₂ ∈ (buatKelompok rnd val app).app.kelompokData) :
    g₁.length ≤ g₂.length + 1 := by
  have hd := (buatKelompok_dealt rnd val app hn hv).2
  obtain ⟨i₁, hi₁⟩ := List.mem_iff_getElem?.mp h₁
  obtain ⟨i₂, hi₂⟩ := List.mem_iff_getElem?.mp h₂
  have hb₁ := dealt_bounds _ _ _ hd i₁ g₁ hi₁
  have hb₂ := dealt_bounds _ _ _ hd i₂ g₂ hi₂
  have hik : i₂ < jumlahKelompok app.modeJumlah val app.anggota.length := by
    rw [← hd.1]
    by_contra hc
    rw [List.getElem?_eq_none (by omega)] at hi₂
    simp at hi₂
  by_contra hc
  have hlast := hb₁.2 (g₁.length - 1) (by omega)
  have hm := Nat.mul_le_mul_right (jumlahKelompok app.modeJumlah val app.anggota.length)
    (show g₂.length + 1 ≤ g₁.length - 1 by omega)
  rw [Nat.add_mul, Nat.one_mul] at hm
  omega

theorem buatKelompok_balanced_witness :
    (sampleApp 7 true).anggota ≠ [] ∧ (1 : Int) ≤ 3 ∧
      (buatKelompok sampleKeys 3 (sampleApp 7 true)).app.kelompokData.map List.length
        = [3, 2, 2] ∧
      [Value.anggota 4 ['D'], Value.anggota 1 ['A'], Value.anggota 7 ['G']].length ≤
        [Value.anggota 2 ['B'], Value.anggota 6 ['F']].length + 1 :=
  ⟨by decide, by decide, by decide,
    buatKelompok_balanced sampleKeys 3 (sampleApp 7 true) (by decide) (by decide)
      [Value.anggota 4 ['D'], Value.anggota 1 ['A'], Value.anggota 7 ['G']]
      [Value.anggota 2 ['B'], Value.anggota 6 ['F']] (by decide) (by decide)⟩

/-- C3 (group count by mode): for a roster of `n ≥ 1` members and an integer target `val ≥ 1`,
`buatKelompok` produces exactly `min(val, n)` groups when `modeJumlah` is true, and exactly
`ceil(n / min(val, n))` groups when `modeJumlah` is false. -/
theorem buatKelompok_group_count (rnd : Nat → Nat) (val : Int) (app : App)
    (hn : app.anggota ≠ []) (hv : 1 ≤ val) :
    (app.modeJumlah = true →
      ((buatKelompok rnd val app).app.kelompokData.length : Int) =
        min val (app.anggota.length : Int)) ∧
    (app.modeJumlah = false →
      (buatKelompok rnd val app).app.kelompokData.length =
        ceilDiv app.anggota.length (min val (app.anggota.length : Int)).toNat ∧
      ((buatKelompok rnd val app).app.kelompokData.length : Int) =
        ⌈(app.anggota.length : ℚ) / ((min val (app.anggota.length : Int) : Int) : ℚ)⌉) := by
  have hpos : 0 < app.anggota.length := List.length_pos.mpr hn
  have hd := (buatKelompok_dealt rnd val app hn hv).2
  obtain ⟨m1, -, m3, -⟩ := min_toNat val app.anggota.length hv hpos
  constructor
  · intro hmode
    rw [hd.1, jumlahKelompok, if_pos hmode, m3]
  · intro hmode
    have hlen : (buatKelompok rnd val app).app.kelompokData.length =
        ceilDiv app.anggota.length (min val (app.anggota.length : Int)).toNat := by
      rw [hd.1, jumlahKelompok, if_neg (by simp [hmode])]
    refine ⟨hlen, ?_⟩
    rw [hlen, ceilDiv_eq_ceil _ _ m1]
    have hc : (((min val (app.anggota.length : Int)).toNat : Nat) : ℚ) =
        ((min val (app.anggota.length : Int) : Int) : ℚ) := by
      rw [← Int.cast_natCast, m3]
    rw [hc]

theorem buatKelompok_group_count_witness :
    (sampleApp 7 false).anggota ≠ [] ∧ (1 : Int) ≤ 3 ∧
      (buatKelompok sampleKeys 3 (sampleApp 7 false)).app.kelompokData.length = 3 ∧
      (buatKelompok sampleKeys 5 (sampleApp 7 true)).app.kelompokData.length = 5 ∧
      (buatKelompok sampleKeys 9 (sampleApp 7 true)).app.kelompokData.length = 7 ∧
      ((buatKelompok sampleKeys 3 (sampleApp 7 false)).app.kelompokData.length =
          ceilDiv (sampleApp 7 false).anggota.length
            (min 3 ((sampleApp 7 false).anggota.length : Int)).toNat ∧
        ((buatKelompok sampleKeys 3 (sampleApp 7 false)).app.kelompokData.length : Int) =
          ⌈((sampleApp 7 false).anggota.length : ℚ) /
            ((min 3 ((sampleApp 7 false).anggota.length : Int) : Int) : ℚ)⌉) :=
  ⟨by decide, by decide, by decide, by decide, by decide,
    (buatKelompok_group_count sampleKeys 3 (sampleApp 7 false) (by decide) (by decide)).2
      (by decide)⟩

/-- C4 (round-robin placement): with `s` the shuffled roster and `k` the resolved number of
groups, `buatKelompok` stores `k` groups, the member of shuffled index `i` is the entry
`i / k` of the group `i % k`, and the group `g` is the subsequence `s[g], s[g + k],
s[g + 2k], ...` of `s`, in that order (its entry `j` is `s[g + j * k]`, and it ends where `s`
ends). -/
theorem buatKelompok_round_robin (rnd : Nat → Nat) (val : Int) (app : App)
    (hn : app.anggota ≠ []) (hv : 1 ≤ val) :
    (buatKelompok rnd val app).app.kelompokData.length =
        jumlahKelompok app.modeJumlah val app.anggota.length ∧
    (∀ (i : Nat) (hi : i < (acakArray rnd app.anggota).length),
      ∃ group : List Value,
        (buatKelompok rnd val app).app.kelompokData[
            i % jumlahKelompok app.modeJumlah val app.anggota.length]? = some group ∧
          group[i / jumlahKelompok app.modeJumlah val app.anggota.length]? =
            some (acakArray rnd app.anggota)[i]) ∧
    (∀ g : Nat, g < jumlahKelompok app.modeJumlah val app.anggota.length →
      ∃ group : List Value,
        (buatKelompok rnd val app).app.kelompokData[g]? = some group ∧
          ∀ j : Nat, group[j]? =
            (acakArray rnd app.anggota)[g + j * jumlahKelompok app.modeJumlah val
              app.anggota.length]?) := by
  have hpos : 0 < app.anggota.length := List.length_pos.mpr hn
  have hk := jumlahKelompok_pos app.modeJumlah val app.anggota.length hv hpos
  have hd := (buatKelompok_dealt rnd val app hn hv).2
  have hgroups : ∀ g : Nat, g < jumlahKelompok app.modeJumlah val app.anggota.length →
      ∃ group : List Value,
        (buatKelompok rnd val app).app.kelompokData[g]? = some group ∧
          ∀ j : Nat, group[j]? =
            (acakArray rnd app.anggota)[g + j * jumlahKelompok app.modeJumlah val
              app.anggota.length]? := by
    intro g hg
    have hlt : g < (buatKelompok rnd val app).app.kelompokData.length := by rw [hd.1]; exact hg
    refine ⟨_, List.getElem?_eq_getElem hlt, ?_⟩
    intro j
    rw [hd.2 g _ (List.getElem?_eq_getElem hlt) j]
    split
    · rfl
    · exact (List.getElem?_eq_none (by omega)).symm
  refine ⟨hd.1, ?_, hgroups⟩
  intro i hi
  obtain ⟨group, hgroup, hcells⟩ := hgroups (i % jumlahKelompok app.modeJumlah val
    app.anggota.length) (Nat.mod_lt _ hk)
  refine ⟨group, hgroup, ?_⟩
  have hdiv : i % jumlahKelompok app.modeJumlah val app.anggota.length +
      i / jumlahKelompok app.modeJumlah val app.anggota.length *
        jumlahKelompok app.modeJumlah val app.anggota.length = i := by
    rw [Nat.mul_comm]; exact Nat.mod_add_div i _
  rw [hcells, List.getElem?_eq_some_iff]
  exact ⟨by omega, by simp only [hdiv]⟩

theorem buatKelompok_round_robin_witness :
    (sampleApp 5 true).anggota ≠ [] ∧ (1 : Int) ≤ 2 ∧
      acakArray sampleKeys (sampleApp 5 true).anggota =
        [Value.anggota 4 ['D'], Value.anggota 2 ['B'], Value.anggota 3 ['C'],
         Value.anggota 1 ['A'], Value.anggota 5 ['E']] ∧
      (buatKelompok sampleKeys 2 (sampleApp 5 true)).app.kelompokData ≠
        [(acakArray sampleKeys (sampleApp 5 true).anggota).take 3,
         (acakArray sampleKeys (sampleApp 5 true).anggota).drop 3] ∧
      (∀ g : Nat, g < jumlahKelompok (sampleApp 5 true).modeJumlah 2
          (sampleApp 5 true).anggota.length →
        ∃ group : List Value,
          (buatKelompok sampleKeys 2 (sampleApp 5 true)).app.kelompokData[g]? = some group ∧
            ∀ j : Nat, group[j]? =
              (acakArray sampleKeys (sampleApp 5 true).anggota)[g + j * jumlahKelompok
                (sampleApp 5 true).modeJumlah 2 (sampleApp 5 true).anggota.length]?) :=
  ⟨by decide, by decide, by decide, by decide,
    (buatKelompok_round_robin sampleKeys 2 (sampleApp 5 true) (by decide) (by decide)).2.2⟩

/-- C10 (the requested size is an upper bound): for a roster of `n ≥ 1` members and an integer
target `val ≥ 1`, when `modeJumlah` is false no group that `buatKelompok` produces has more than
`val` members, and `ceil(n / ceil(n / min(val, n))) ≤ min(val, n) ≤ val`. -/
theorem buatKelompok_size_bound (rnd : Nat → Nat) (val : Int) (app : App)
    (hn : app.anggota ≠ []) (hv : 1 ≤ val) (hmode : app.modeJumlah = false) :
    (∀ group ∈ (buatKelompok rnd val app).app.kelompokData, (group.length : Int) ≤ val) ∧
      ((ceilDiv app.anggota.length
          (ceilDiv app.anggota.length (min val (app.anggota.length : Int)).toNat) : Nat) : Int)
        ≤ min val (app.anggota.length : Int) ∧
      min val (app.anggota.length : Int) ≤ val := by
  have hpos : 0 < app.anggota.length := List.length_pos.mpr hn
  have hd := (buatKelompok_dealt rnd val app hn hv).2
  obtain ⟨m1, -, m3, m4⟩ := min_toNat val app.anggota.length hv hpos
  have hk : jumlahKelompok app.modeJumlah val app.anggota.length =
      ceilDiv app.anggota.length (min val (app.anggota.length : Int)).toNat := by
    rw [jumlahKelompok, if_neg (by simp [hmode])]
  rw [hk] at hd
  have hge : (acakArray rnd app.anggota).length ≤
      ceilDiv app.anggota.length (min val (app.anggota.length : Int)).toNat *
        (min val (app.anggota.length : Int)).toNat := by
    rw [acakArray_length]; exact ceilDiv_mul_ge app.anggota.length _ m1
  refine ⟨?_, ?_, min_le_left _ _⟩
  · intro group hgroup
    have hle := dealt_length_le _ _ _ _ hd hge group hgroup
    have hcast : (group.length : Int) ≤ ((min val (app.anggota.length : Int)).toNat : Int) := by
      exact_mod_cast hle
    exact hcast.trans m4
  · have hle := ceilDiv_ceilDiv_le app.anggota.length _ m1 hpos
    have hcast : ((ceilDiv app.anggota.length
        (ceilDiv app.anggota.length (min val (app.anggota.length : Int)).toNat) : Nat) : Int) ≤
        ((min val (app.anggota.length : Int)).toNat : Int) := by
      exact_mod_cast hle
    exact hcast.trans (le_of_eq m3)

theorem buatKelompok_size_bound_witness :
    (sampleApp 7 false).anggota ≠ [] ∧ (1 : Int) ≤ 3 ∧
      (buatKelompok sampleKeys 3 (sampleApp 7 false)).app.kelompokData.map List.length
        = [3, 2, 2] ∧
      (∀ group ∈ (buatKelompok sampleKeys 3 (sampleApp 7 false)).app.kelompokData,
        (group.length : Int) ≤ 3) :=
  ⟨by decide, by decide, by decide,
    (buatKelompok_size_bound sampleKeys 3 (sampleApp 7 false) (by decide) (by decide)
      (by decide)).1⟩

/-- C9, as the code has it: with an empty roster `buatKelompok` returns at its first guard and
leaves the whole state as it was, `kelompokData` included, whatever the target and the mode; the
group set has zero groups afterwards exactly when it had zero groups before. -/
theorem buatKelompok_empty_roster (rnd : Nat → Nat) (val : Int) (app : App)
    (hn : app.anggota = []) :
    buatKelompok rnd val app = ⟨app, false⟩ ∧
      ((buatKelompok rnd val app).app.kelompokData.length = 0 ↔ app.kelompokData.length = 0) := by
  have h : buatKelompok rnd val app = ⟨app, false⟩ := by
    simp [buatKelompok, hn]
  rw [h]
  exact ⟨rfl, Iff.rfl⟩

theorem buatKelompok_empty_roster_witness :
    (App.mk [] [] true false none).anggota = [] ∧
      buatKelompok sampleKeys 3 (App.mk [] [] true false none) =
        ⟨App.mk [] [] true false none, false⟩ ∧
      ((buatKelompok sampleKeys 3 (App.mk [] [] true false none)).app.kelompokData.length = 0 ↔
        (App.mk [] [] true false none).kelompokData.length = 0) :=
  ⟨rfl, buatKelompok_empty_roster sampleKeys 3 (App.mk [] [] true false none) rfl⟩

/-- C9 as stated fails: with an empty roster and a group set of one group left from before
(a snapshot loaded at startup, or groups made before the members were deleted), `buatKelompok`
leaves that one group in `kelompokData`, not zero groups. -/
theorem buatKelompok_keeps_stale_groups :
    (App.mk [] [[Value.anggota 1 ['A']]] true false none).anggota = [] ∧
      (buatKelompok sampleKeys 3
        (App.mk [] [[Value.anggota 1 ['A']]] true false none)).app.kelompokData =
          [[Value.anggota 1 ['A']]] ∧
      (buatKelompok sampleKeys 3
        (App.mk [] [[Value.anggota 1 ['A']]] true false none)).app.kelompokData.length ≠ 0 := by
  decide

/-! ## Moves: helper facts -/

theorem index?_natCast {α : Type} (arr : List α) (n : Nat) : index? arr (n : Int) = arr[n]? := by
  unfold index?
  rw [if_neg (by omega), Int.toNat_natCast]

/-- On an index of the array, `splice(start, 1)` removes the element at that index. -/
theorem splice1_valid (arr : List Value) (a : Nat) (ha : a < arr.length) :
    splice1 arr (a : Int) = ([arr[a]], arr.eraseIdx a) := by
  have hstart : spliceStart arr.length (a : Int) = a := by
    unfold spliceStart
    rw [if_neg (by omega), Int.toNat_natCast]
    exact Nat.min_eq_left (Nat.le_of_lt ha)
  have hcount : min 1 (arr.length - a) = 1 := Nat.min_eq_left (by omega)
  simp only [splice1, hstart, hcount]
  refine Prod.ext ?_ ?_
  · show List.take 1 (List.drop a arr) = [arr[a]]
    rw [List.drop_eq_getElem_cons ha]
    rfl
  · show List.take a arr ++ List.drop (a + 1) arr = arr.eraseIdx a
    rw [List.eraseIdx_eq_take_drop_succ]

/-- What `splice(start, 1)` leaves is the array with at most one element taken out. -/
theorem splice1_sublist (arr : List Value) (start : Int) : (splice1 arr start).2.Sublist arr := by
  simp only [splice1]
  have h : arr = arr.take (spliceStart arr.length start) ++
      arr.drop (spliceStart arr.length start) := (List.take_append_drop _ _).symm
  conv_rhs => rw [h]
  apply List.Sublist.append_left
  rw [← List.drop_drop]
  exact List.drop_sublist _ _

theorem perm_cons_eraseIdx (arr : List Value) (a : Nat) (ha : a < arr.length) :
    (arr[a] :: arr.eraseIdx a).Perm arr := by
  rw [List.eraseIdx_eq_take_drop_succ]
  have h : arr = arr.take a ++ arr[a] :: arr.drop (a + 1) := by
    conv_lhs => rw [← List.take_append_drop a arr, List.drop_eq_getElem_cons ha]
  conv_rhs => rw [h]
  exact List.perm_middle.symm

theorem flatten_set_perm (groups : List (List Value)) (g : Nat) (old new : List Value)
    (x : Value) (h : groups[g]? = some old) (hp : (x :: new).Perm old) :
    (x :: (groups.set g new).flatten).Perm groups.flatten := by
  induction groups generalizing g with
  | nil => simp at h
  | cons y ys ih =>
    cases g with
    | zero =>
      simp only [List.getElem?_cons_zero, Option.some.injEq] at h
      subst h
      simp only [List.set_cons_zero, List.flatten_cons]
      exact List.Perm.append_right ys.flatten hp
    | succ g =>
      simp only [List.getElem?_cons_succ] at h
      simp only [List.set_cons_succ, List.flatten_cons]
      exact List.perm_middle.symm.trans ((ih g h).append_left y)

/-! ## Moves: the claims -/

/-- C5 (result of a valid move): for group indices `f ≠ t` of the group set and an index `a`
of the source group, `onDrop` does not throw, keeps the number of groups, leaves the source
group as it was with the element at `a` removed, leaves the destination group as it was with
that member appended as its last element, leaves every other group unchanged, and so keeps the
members (as a multiset) and their total number across the groups. -/
theorem onDrop_valid_move (app : App) (a f t : Nat) (source target : List Value)
    (hft : f ≠ t) (hf : app.kelompokData[f]? = some source)
    (ht : app.kelompokData[t]? = some target) (ha : a < source.length) :
    (onDrop (a : Int) (f : Int) (t : Int) app).threw = false ∧
      (onDrop (a : Int) (f : Int) (t : Int) app).app.kelompokData.length =
        app.kelompokData.length ∧
      (onDrop (a : Int) (f : Int) (t : Int) app).app.kelompokData[f]? =
        some (source.eraseIdx a) ∧
      (onDrop (a : Int) (f : Int) (t : Int) app).app.kelompokData[t]? =
        some (target ++ [source[a]]) ∧
      (∀ g : Nat, g ≠ f → g ≠ t →
        (onDrop (a : Int) (f : Int) (t : Int) app).app.kelompokData[g]? =
          app.kelompokData[g]?) ∧
      ((onDrop (a : Int) (f : Int) (t : Int) app).app.kelompokData.flatten).Perm
        app.kelompokData.flatten ∧
      ((onDrop (a : Int) (f : Int) (t : Int) app).app.kelompokData.map List.length).sum =
        (app.kelompokData.map List.length).sum := by
  have hflt : f < app.kelompokData.length := by
    by_contra hc
    rw [List.getElem?_eq_none (by omega)] at hf
    simp at hf
  have htlt : t < app.kelompokData.length := by
    by_contra hc
    rw [List.getElem?_eq_none (by omega)] at ht
    simp at ht
  have hne : ¬ ((f : Int) = (t : Int)) := by omega
  have ht1 : (app.kelompokData.set f (source.eraseIdx a))[t]? = some target := by
    rw [List.getElem?_set, if_neg hft]; exact ht
  have hrun : onDrop (a : Int) (f : Int) (t : Int) app =
      ⟨{ app with kelompokData :=
          (app.kelompokData.set f (source.eraseIdx a)).set t (target ++ [source[a]]) },
        false⟩ := by
    simp only [onDrop, if_neg hne, index?_natCast, hf, splice1_valid source a ha,
      Int.toNat_natCast, ht1, List.head?_cons, Option.getD_some]
  rw [hrun]
  have hperm : (((app.kelompokData.set f (source.eraseIdx a)).set t
      (target ++ [source[a]])).flatten).Perm app.kelompokData.flatten :=
    (flatten_set_push_perm _ t target source[a] ht1).trans
      (flatten_set_perm _ f source _ source[a] hf (perm_cons_eraseIdx source a ha))
  refine ⟨rfl, by simp, ?_, ?_, ?_, hperm, ?_⟩
  · show ((app.kelompokData.set f (source.eraseIdx a)).set t (target ++ [source[a]]))[f]? = _
    rw [List.getElem?_set, if_neg (Ne.symm hft), List.getElem?_set, if_pos rfl, if_pos hflt]
  · show ((app.kelompokData.set f (source.eraseIdx a)).set t (target ++ [source[a]]))[t]? = _
    rw [List.getElem?_set, if_pos rfl, if_pos (by rw [List.length_set]; exact htlt)]
  · intro g hgf hgt
    show ((app.kelompokData.set f (source.eraseIdx a)).set t (target ++ [source[a]]))[g]? = _
    rw [List.getElem?_set, if_neg (Ne.symm hgt), List.getElem?_set, if_neg (Ne.symm hgf)]
  · have := hperm.length_eq
    rw [List.length_flatten, List.length_flatten] at this
    exact this

theorem onDrop_valid_move_witness :
    (0 : Nat) ≠ 1 ∧
      (onDrop ((1 : Nat) : Int) ((0 : Nat) : Int) ((1 : Nat) : Int)
        (App.mk [] [[Value.anggota 1 ['A'], Value.anggota 2 ['B']], [Value.anggota 3 ['C']]]
          true false none)).app.kelompokData =
        [[Value.anggota 1 ['A']], [Value.anggota 3 ['C'], Value.anggota 2 ['B']]] ∧
      (onDrop ((1 : Nat) : Int) ((0 : Nat) : Int) ((1 : Nat) : Int)
        (App.mk [] [[Value.anggota 1 ['A'], Value.anggota 2 ['B']], [Value.anggota 3 ['C']]]
          true false none)).threw = false :=
  ⟨by decide, by decide,
    (onDrop_valid_move
      (App.mk [] [[Value.anggota 1 ['A'], Value.anggota 2 ['B']], [Value.anggota 3 ['C']]]
        true false none) 1 0 1 [Value.anggota 1 ['A'], Value.anggota 2 ['B']]
      [Value.anggota 3 ['C']] (by decide) (by decide) (by decide) (by decide)).1⟩

/-- C7 (a move within one group does nothing): `onDrop` with `fromGroupIdx` equal to
`toGroupIdx` returns at once, for every `anggotaIdx` and every state: it does not throw and
the state, `kelompokData` included, is what it was. -/
theorem onDrop_same_group (anggotaIdx groupIdx : Int) (app : App) :
    onDrop anggotaIdx groupIdx groupIdx app = ⟨app, false⟩ ∧
      (onDrop anggotaIdx groupIdx groupIdx app).app.kelompokData = app.kelompokData := by
  simp [onDrop]

theorem index?_set_eq_none {α : Type} (arr : List α) (n : Nat) (x : α) (i : Int) :
    index? (arr.set n x) i = none ↔ index? arr i = none := by
  unfold index?
  by_cases hi : i < 0
  · simp [hi]
  · simp only [if_neg hi, List.getElem?_eq_none_iff, List.length_set]

/-- C6, as the code has it: `onDrop` checks no bound. For `fromGroupIdx ≠ toGroupIdx`:
when `fromGroupIdx` is outside the group set the call throws and the state is unchanged; when
`fromGroupIdx` is inside and `toGroupIdx` outside, the call throws after the `splice`, nothing is
appended to any group and the only group that can differ is the source group, left as `splice`
left it; when both group indices are inside, the call does not throw, whatever `anggotaIdx`. -/
theorem onDrop_malformed (app : App) (anggotaIdx fromGroupIdx toGroupIdx : Int)
    (hft : fromGroupIdx ≠ toGroupIdx) :
    (index? app.kelompokData fromGroupIdx = none →
      onDrop anggotaIdx fromGroupIdx toGroupIdx app = ⟨app, true⟩) ∧
    (∀ source : List Value, index? app.kelompokData fromGroupIdx = some source →
      index? app.kelompokData toGroupIdx = none →
        (onDrop anggotaIdx fromGroupIdx toGroupIdx app).threw = true ∧
        (onDrop anggotaIdx fromGroupIdx toGroupIdx app).app.kelompokData =
          app.kelompokData.set fromGroupIdx.toNat (splice1 source anggotaIdx).2 ∧
        (splice1 source anggotaIdx).2.Sublist source) ∧
    (∀ source target : List Value, index? app.kelompokData fromGroupIdx = some source →
      index? app.kelompokData toGroupIdx = some target →
        (onDrop anggotaIdx fromGroupIdx toGroupIdx app).threw = false) := by
  refine ⟨?_, ?_, ?_⟩
  · intro hnone
    simp only [onDrop, if_neg hft, hnone]
  · intro source hsome hnone
    have h1 : index? (app.kelompokData.set fromGroupIdx.toNat (splice1 source anggotaIdx).2)
        toGroupIdx = none := (index?_set_eq_none _ _ _ _).mpr hnone
    simp only [onDrop, if_neg hft, hsome, h1]
    exact ⟨trivial, trivial, splice1_sublist source anggotaIdx⟩
  · intro source target hsome htarget
    have h1 : index? (app.kelompokData.set fromGroupIdx.toNat (splice1 source anggotaIdx).2)
        toGroupIdx ≠ none := by
      intro hc
      rw [index?_set_eq_none] at hc
      rw [hc] at htarget
      exact Option.noConfusion htarget
    obtain ⟨target1, h2⟩ := Option.ne_none_iff_exists.mp h1
    simp only [onDrop, if_neg hft, hsome, ← h2]

theorem onDrop_malformed_witness :
    (0 : Int) ≠ 5 ∧
      ((onDrop 1 0 5 (App.mk [] [[Value.anggota 1 ['A'], Value.anggota 2 ['B']],
          [Value.anggota 3 ['C']]] true false none)).threw = true ∧
        (onDrop 1 0 5 (App.mk [] [[Value.anggota 1 ['A'], Value.anggota 2 ['B']],
          [Value.anggota 3 ['C']]] true false none)).app.kelompokData =
          (App.mk [] [[Value.anggota 1 ['A'], Value.anggota 2 ['B']],
            [Value.anggota 3 ['C']]] true false none).kelompokData.set (0 : Int).toNat
              (splice1 [Value.anggota 1 ['A'], Value.anggota 2 ['B']] 1).2 ∧
        (splice1 [Value.anggota 1 ['A'], Value.anggota 2 ['B']] 1).2.Sublist
          [Value.anggota 1 ['A'], Value.anggota 2 ['B']]) ∧
      onDrop 1 7 0 (App.mk [] [[Value.anggota 1 ['A'], Value.anggota 2 ['B']],
          [Value.anggota 3 ['C']]] true false none) =
        ⟨App.mk [] [[Value.anggota 1 ['A'], Value.anggota 2 ['B']],
          [Value.anggota 3 ['C']]] true false none, true⟩ :=
  ⟨by decide,
    (onDrop_malformed (App.mk [] [[Value.anggota 1 ['A'], Value.anggota 2 ['B']],
      [Value.anggota 3 ['C']]] true false none) 1 0 5 (by decide)).2.1
        [Value.anggota 1 ['A'], Value.anggota 2 ['B']] (by decide) (by decide),
    by decide⟩

/-- C6 as stated fails on `[[A, B], [C]]`. With `toGroupIdx = 5` outside the group set the
call throws, but `B` has already been removed from group 0. With `anggotaIdx = 7` outside the
source group the call does not throw and appends `undefined` to group 1; with
`anggotaIdx = -1` it does not throw either and moves the last member `B`. -/
theorem onDrop_not_atomic :
    (index? (App.mk [] [[Value.anggota 1 ['A'], Value.anggota 2 ['B']],
        [Value.anggota 3 ['C']]] true false none).kelompokData 5 = none ∧
      onDrop 1 0 5 (App.mk [] [[Value.anggota 1 ['A'], Value.anggota 2 ['B']],
          [Value.anggota 3 ['C']]] true false none) =
        ⟨App.mk [] [[Value.anggota 1 ['A']], [Value.anggota 3 ['C']]] true false none, true⟩) ∧
    (index? [Value.anggota 1 ['A'], Value.anggota 2 ['B']] 7 = none ∧
      onDrop 7 0 1 (App.mk [] [[Value.anggota 1 ['A'], Value.anggota 2 ['B']],
          [Value.anggota 3 ['C']]] true false none) =
        ⟨App.mk [] [[Value.anggota 1 ['A'], Value.anggota 2 ['B']],
          [Value.anggota 3 ['C'], Value.undefined]] true false none, false⟩) ∧
    (index? [Value.anggota 1 ['A'], Value.anggota 2 ['B']] (-1) = none ∧
      onDrop (-1) 0 1 (App.mk [] [[Value.anggota 1 ['A'], Value.anggota 2 ['B']],
          [Value.anggota 3 ['C']]] true false none) =
        ⟨App.mk [] [[Value.anggota 1 ['A']],
          [Value.anggota 3 ['C'], Value.anggota 2 ['B']]] true false none, false⟩) := by
  decide

/-! ## Name entry -/

theorem isSeparator_iff (c : Char) : isSeparator c = true ↔ c = ',' ∨ c = '\n' := by
  simp [isSeparator]

theorem splitNames_sep (c : Char) (cs : List Char) (hc : isSeparator c = true) :
    splitNames (c :: cs) = [] :: splitNames cs := by
  rw [splitNames, if_pos hc]

theorem splitNames_char (c : Char) (cs : List Char) (piece : List Char)
    (pieces : List (List Char)) (hc : ¬ isSeparator c = true)
    (hsplit : splitNames cs = piece :: pieces) :
    splitNames (c :: cs) = (c :: piece) :: pieces := by
  rw [splitNames, if_neg hc, hsplit]

/-- The pieces of `splitNames` are the segments of the input between its commas and newlines:
there is one piece more than separators, no piece holds a separator, and the pieces with the
separators between them spell the input. -/
theorem splitNames_spec (input : List Char) :
    ∃ seps : List Char, seps.length + 1 = (splitNames input).length ∧
      (∀ c ∈ seps, c = ',' ∨ c = '\n') ∧
      weave (splitNames input) seps = input ∧
      ∀ piece ∈ splitNames input, ',' ∉ piece ∧ '\n' ∉ piece := by
  induction input with
  | nil =>
    refine ⟨[], rfl, by simp, rfl, ?_⟩
    intro piece hp
    simp only [splitNames, List.mem_singleton] at hp
    subst hp
    simp
  | cons c cs ih =>
    obtain ⟨seps, hlen, hseps, hweave, hpieces⟩ := ih
    by_cases hc : isSeparator c = true
    · rw [splitNames_sep c cs hc]
      refine ⟨c :: seps, ?_, ?_, ?_, ?_⟩
      · simp [hlen]
      · intro d hd
        rcases List.mem_cons.mp hd with h | h
        · rw [h]; exact (isSeparator_iff c).mp hc
        · exact hseps d h
      · show [] ++ c :: weave (splitNames cs) seps = c :: cs
        rw [hweave, List.nil_append]
      · intro piece hp
        rcases List.mem_cons.mp hp with h | h
        · subst h; simp
        · exact hpieces piece h
    · have hcomma : c ≠ ',' := fun h => hc ((isSeparator_iff c).mpr (Or.inl h))
      have hnl : c ≠ '\n' := fun h => hc ((isSeparator_iff c).mpr (Or.inr h))
      cases hsplit : splitNames cs with
      | nil => rw [hsplit] at hlen; simp at hlen
      | cons piece pieces =>
        rw [hsplit] at hlen hweave hpieces
        rw [splitNames_char c cs piece pieces hc hsplit]
        refine ⟨seps, ?_, hseps, ?_, ?_⟩
        · simpa using hlen
        · cases seps with
          | nil =>
            have hw : piece = cs := hweave
            show c :: piece = c :: cs
            rw [hw]
          | cons d ds =>
            have hw : piece ++ d :: weave pieces ds = cs := hweave
            show (c :: piece) ++ d :: weave pieces ds = c :: cs
            rw [List.cons_append, hw]
        · intro p hp
          rcases List.mem_cons.mp hp with h | h
          · subst h
            have hpc := hpieces piece (List.mem_cons_self _ _)
            refine ⟨?_, ?_⟩
            · intro hmem
              rcases List.mem_cons.mp hmem with h1 | h1
              · exact hcomma h1.symm
              · exact hpc.1 h1
            · intro hmem
              rcases List.mem_cons.mp hmem with h1 | h1
              · exact hnl h1.symm
              · exact hpc.2 h1
          · exact hpieces p (List.mem_cons_of_mem _ h)

/-- The result of `trim` is the name without the longest run of white space at its start and
at its end: the name is `pre ++ trim name ++ post` with `pre` and `post` white space only, and
`trim name` neither starts nor ends with white space. -/
theorem trim_spec (name : List Char) :
    (∃ pre post : List Char, name = pre ++ trim name ++ post ∧
      (∀ c ∈ pre, isTrimmed c = true) ∧ (∀ c ∈ post, isTrimmed c = true)) ∧
    (∀ c : Char, (trim name).head? = some c → isTrimmed c = false) ∧
    (∀ c : Char, (trim name).getLast? = some c → isTrimmed c = false) := by
  have htrim : trim name = List.rdropWhile isTrimmed (name.dropWhile isTrimmed) := rfl
  have hsplit : name.dropWhile isTrimmed =
      trim name ++ List.rtakeWhile isTrimmed (name.dropWhile isTrimmed) := by
    have h := List.takeWhile_append_dropWhile isTrimmed (name.dropWhile isTrimmed).reverse
    have h2 := congrArg List.reverse h
    rw [List.reverse_append, List.reverse_reverse] at h2
    exact h2.symm
  refine ⟨⟨name.takeWhile isTrimmed, List.rtakeWhile isTrimmed (name.dropWhile isTrimmed),
    ?_, fun c hc => List.mem_takeWhile_imp hc, fun c hc => List.mem_rtakeWhile_imp hc⟩, ?_, ?_⟩
  · rw [List.append_assoc, ← hsplit, List.takeWhile_append_dropWhile]
  · intro c hc
    have hne : trim name ≠ [] := by
      intro h; rw [h] at hc; simp at hc
    have hhead : (name.dropWhile isTrimmed).head? = some c := by
      rw [hsplit, List.head?_append_of_ne_nil _ hne]; exact hc
    have h := List.head?_dropWhile_not isTrimmed name
    rw [hhead] at h
    simpa using h
  · intro c hc
    have hne : trim name ≠ [] := by
      intro h; rw [h] at hc; simp at hc
    rw [List.getLast?_eq_getLast _ hne, Option.some.injEq] at hc
    have h := List.rdropWhile_last_not isTrimmed (name.dropWhile isTrimmed) hne
    rw [← hc]
    simpa using h

theorem trim_subset (name : List Char) : trim name ⊆ name := by
  have h1 : trim name <+: name.dropWhile isTrimmed := List.rdropWhile_prefix _ _
  have h2 : name.dropWhile isTrimmed <:+ name := List.dropWhile_suffix _
  exact fun c hc => h2.subset (h1.subset hc)


theorem acceptedCount_le (rejects : Nat → Bool) (n : Nat) :
    ∀ i : Nat, acceptedCount rejects n i ≤ n := by
  induction n with
  | zero => intro i; exact Nat.le_refl 0
  | succ n ih =>
    intro i
    unfold acceptedCount
    split
    · exact Nat.zero_le _
    · exact Nat.succ_le_succ (ih (i + 1))

/-- The count `acceptedCount rejects n i` is the position of the first rejected call among the
`n` calls numbered from `i` on, and `n` when there is none. -/
theorem acceptedCount_spec (rejects : Nat → Bool) (n : Nat) :
    ∀ i : Nat, (∀ j : Nat, j < acceptedCount rejects n i → rejects (i + j) = false) ∧
      (acceptedCount rejects n i < n → rejects (i + acceptedCount rejects n i) = true) := by
  induction n with
  | zero =>
    intro i
    exact ⟨fun j hj => absurd hj (Nat.not_lt_zero j), fun h => absurd h (Nat.lt_irrefl 0)⟩
  | succ n ih =>
    intro i
    unfold acceptedCount
    by_cases hr : rejects i = true
    · rw [if_pos hr]
      exact ⟨fun j hj => absurd hj (Nat.not_lt_zero j), fun _ => hr⟩
    · rw [if_neg hr]
      obtain ⟨h1, h2⟩ := ih (i + 1)
      constructor
      · intro j hj
        cases j with
        | zero => simpa using hr
        | succ j =>
          have := h1 j (by omega)
          rw [show i + (j + 1) = i + 1 + j by omega]
          exact this
      · intro hlt
        have := h2 (by omega)
        rw [show i + (acceptedCount rejects n (i + 1) + 1) =
          i + 1 + acceptedCount rejects n (i + 1) by omega]
        exact this

theorem acceptedCount_full (rejects : Nat → Bool) (n i : Nat)
    (h : ∀ j : Nat, j < n → rejects (i + j) = false) : acceptedCount rejects n i = n := by
  have hle := acceptedCount_le rejects n i
  by_contra hne
  have hlt : acceptedCount rejects n i < n := by omega
  have h1 := (acceptedCount_spec rejects n i).2 hlt
  rw [h _ hlt] at h1
  exact Bool.noConfusion h1

/-- The loop adds the names that come before the first rejected call, and it throws exactly
when a call rejects. -/
theorem addAnggotaLoop_added (rejects : Nat → Bool) (names : List (List Char)) :
    ∀ i : Nat,
      addedNames (addAnggotaLoop rejects names i).1 =
        names.take (acceptedCount rejects names.length i) ∧
      ((addAnggotaLoop rejects names i).2 = false ↔
        acceptedCount rejects names.length i = names.length) := by
  induction names with
  | nil => intro i; exact ⟨rfl, by simp [addAnggotaLoop, acceptedCount]⟩
  | cons name rest ih =>
    intro i
    by_cases hr : rejects i = true
    · simp only [addAnggotaLoop, acceptedCount, List.length_cons, if_pos hr]
      exact ⟨rfl, by simp⟩
    · obtain ⟨h1, h2⟩ := ih (i + 1)
      simp only [addAnggotaLoop, acceptedCount, List.length_cons, if_neg hr]
      refine ⟨?_, ?_⟩
      · show name :: addedNames (addAnggotaLoop rejects rest (i + 1)).1 = _
        rw [h1]
        rfl
      · rw [h2]
        omega

theorem addedNames_append_load (events : List DbEvent) (rejects : Nat → Bool) (i : Nat)
    (reloaded : List Value) (app : App) :
    addedNames (events ++ (loadAnggotaFromDB rejects i reloaded app).2) = addedNames events := by
  unfold addedNames loadAnggotaFromDB
  rw [List.filterMap_append]
  split <;> simp

/-- When no member is being edited, the names that `simpanNamaAnggota` adds are the names of
`parseNames` that come before the first rejected database call, whichever way the method
returns. -/
theorem simpanNamaAnggota_added (input : List Char) (rejects : Nat → Bool)
    (reloaded : List Value) (app : App) (hedit : app.isEditing = false) :
    addedNames (simpanNamaAnggota input rejects reloaded app).2 =
      (parseNames input).take (acceptedCount rejects (parseNames input).length 0) := by
  unfold simpanNamaAnggota
  by_cases h1 : input.isEmpty = true
  · rw [if_pos h1]
    have : input = [] := List.isEmpty_iff.mp h1
    subst this
    rfl
  · rw [if_neg h1]
    by_cases h2 : (parseNames input).length = 0
    · simp only [h2, if_true]
      rw [List.length_eq_zero.mp h2]
      rfl
    · obtain ⟨hadd, -⟩ := addAnggotaLoop_added rejects (parseNames input) 0
      simp only [h2, if_false, hedit, Bool.false_eq_true]
      split
      · exact hadd
      · show addedNames (_ ++ (loadAnggotaFromDB rejects _ reloaded app).2) = _
        rw [addedNames_append_load]
        exact hadd

/-- C8, as the code has it: when no member is being edited, the names that `simpanNamaAnggota`
adds are, in order, the segments of the input between its commas and newlines (the pieces that,
with the separators put back between them, spell the input), each trimmed of the white space
around it, the empty results left out, up to the first call of `db.addAnggota` that rejects: all
of them when no call rejects, and otherwise the ones before the rejected call, where the `catch`
ends the loop. In every case each added name is non-empty, neither starts nor ends with white
space, and holds no comma and no newline. -/
theorem simpanNamaAnggota_names (input : List Char) (rejects : Nat → Bool)
    (reloaded : List Value) (app : App) (hedit : app.isEditing = false) :
    (∃ (pieces : List (List Char)) (seps : List Char),
      seps.length + 1 = pieces.length ∧
      (∀ c ∈ seps, c = ',' ∨ c = '\n') ∧
      (∀ piece ∈ pieces, ',' ∉ piece ∧ '\n' ∉ piece) ∧
      weave pieces seps = input ∧
      ((∀ j : Nat, j < ((pieces.map trim).filter (fun name => decide (name ≠ []))).length →
          rejects j = false) →
        addedNames (simpanNamaAnggota input rejects reloaded app).2 =
          (pieces.map trim).filter (fun name => decide (name ≠ []))) ∧
      ∃ n : Nat, n ≤ ((pieces.map trim).filter (fun name => decide (name ≠ []))).length ∧
        (∀ j : Nat, j < n → rejects j = false) ∧
        (n < ((pieces.map trim).filter (fun name => decide (name ≠ []))).length →
          rejects n = true) ∧
        addedNames (simpanNamaAnggota input rejects reloaded app).2 =
          ((pieces.map trim).filter (fun name => decide (name ≠ []))).take n) ∧
    (∀ name : List Char,
      (∃ pre post : List Char, name = pre ++ trim name ++ post ∧
        (∀ c ∈ pre, isTrimmed c = true) ∧ (∀ c ∈ post, isTrimmed c = true)) ∧
      (∀ c : Char, (trim name).head? = some c → isTrimmed c = false) ∧
      (∀ c : Char, (trim name).getLast? = some c → isTrimmed c = false)) ∧
    (∀ name ∈ addedNames (simpanNamaAnggota input rejects reloaded app).2,
      name ≠ [] ∧
      (∀ c : Char, name.head? = some c → isTrimmed c = false) ∧
      (∀ c : Char, name.getLast? = some c → isTrimmed c = false) ∧
      ',' ∉ name ∧ '\n' ∉ name) := by
  have hadded := simpanNamaAnggota_added input rejects reloaded app hedit
  obtain ⟨seps, hlen, hseps, hweave, hpieces⟩ := splitNames_spec input
  have hfilter : (fun name : List Char => !name.isEmpty) =
      (fun name : List Char => decide (name ≠ [])) := by
    funext name
    cases name <;> simp
  have hparse : parseNames input =
      ((splitNames input).map trim).filter (fun name => decide (name ≠ [])) := by
    rw [parseNames, hfilter]
  have hspec := acceptedCount_spec rejects (parseNames input).length 0
  simp only [Nat.zero_add] at hspec
  refine ⟨⟨splitNames input, seps, hlen, hseps, hpieces, hweave, ?_, ?_⟩, trim_spec, ?_⟩
  · intro hnone
    rw [← hparse] at hnone ⊢
    rw [hadded, acceptedCount_full rejects _ 0 (by simpa using hnone), List.take_length]
  · rw [← hparse]
    exact ⟨acceptedCount rejects (parseNames input).length 0, acceptedCount_le _ _ _,
      hspec.1, hspec.2, hadded⟩
  · intro name hname
    rw [hadded] at hname
    have hmem : name ∈ parseNames input := List.mem_of_mem_take hname
    rw [parseNames, List.mem_filter, List.mem_map] at hmem
    obtain ⟨⟨piece, hpiece, rfl⟩, hne⟩ := hmem
    have hsep := hpieces piece hpiece
    refine ⟨?_, (trim_spec piece).2.1, (trim_spec piece).2.2, ?_, ?_⟩
    · intro h; rw [h] at hne; simp at hne
    · exact fun h => hsep.1 (trim_subset piece h)
    · exact fun h => hsep.2 (trim_subset piece h)

theorem simpanNamaAnggota_names_witness :
    (sampleApp 0 true).isEditing = false ∧
      addedNames (simpanNamaAnggota "Ann, Bob\nCara".toList (fun _ => false) []
          (sampleApp 0 true)).2 =
        ["Ann".toList, "Bob".toList, "Cara".toList] ∧
      (∀ name ∈ addedNames (simpanNamaAnggota "Ann, Bob\nCara".toList (fun _ => false) []
          (sampleApp 0 true)).2,
        name ≠ [] ∧
        (∀ c : Char, name.head? = some c → isTrimmed c = false) ∧
        (∀ c : Char, name.getLast? = some c → isTrimmed c = false) ∧
        ',' ∉ name ∧ '\n' ∉ name) :=
  ⟨by decide, by decide,
    (simpanNamaAnggota_names "Ann, Bob\nCara".toList (fun _ => false) [] (sampleApp 0 true)
      (by decide)).2.2⟩

/-- C8 as stated fails when the database rejects a call: on the input `Ann, Bob` newline `Cara`,
not editing, with the second call of `db.addAnggota` rejecting, `Ann` and `Bob` are handed over,
`Cara` never is, and the only name added is `Ann`, not the three names of the input. -/
theorem simpanNamaAnggota_stops_at_rejection :
    (sampleApp 0 true).isEditing = false ∧
      parseNames "Ann, Bob\nCara".toList = ["Ann".toList, "Bob".toList, "Cara".toList] ∧
      handedNames (simpanNamaAnggota "Ann, Bob\nCara".toList (fun j => j == 1) []
          (sampleApp 0 true)).2 = ["Ann".toList, "Bob".toList] ∧
      addedNames (simpanNamaAnggota "Ann, Bob\nCara".toList (fun j => j == 1) []
          (sampleApp 0 true)).2 = ["Ann".toList] ∧
      addedNames (simpanNamaAnggota "Ann, Bob\nCara".toList (fun j => j == 1) []
          (sampleApp 0 true)).2 ≠ parseNames "Ann, Bob\nCara".toList := by
  decide

end Gachakel
